import Mathlib

/-!
# Verification of the crates.io updates bot

A shallow embedding of `src/main.rs` of the `crates_io_updates_bot`
repository.  The bot keeps a `HashMap<String, String>` (`VERSION_MAP`)
from crate name to last-known version, guarded by a mutex; four chat
command handlers (`add`, `remove`, `list`, `help`) mutate or read it,
and a background loop (`update_check_loop`) polls crates.io and
reports version changes.

The `HashMap` is modelled as an association list with unique keys
(`WatchMap`); the crates.io client is modelled as a function from
crate name to `Except CratesIoError String` mirroring
`latest_version`.  Each handler is a pure function from the configured
room, the inbound message's room, the map and the command tail to the
new map together with the optional reply sent (`none` = no message
sent).  The poll loop's single cycle is `pollCycle`; the `unwrap()` in
`update_check_loop` (a process-terminating panic on a registry error)
is modelled by the cycle returning `none`.
-/

/-- Errors of the crates.io client, as `main.rs` distinguishes them:
`crates_io_api::Error::NotFound` versus every other variant, whose
`Display` rendering is carried as a string. -/
inductive CratesIoError where
  | notFound : CratesIoError
  | other : String → CratesIoError
deriving DecidableEq

/-- The registry: `latest_version(crate_name)` from `main.rs`, which
returns `info.versions[0].num` on success. -/
abbrev Registry := String → Except CratesIoError String

/-- The `VERSION_MAP`: a `HashMap<String, String>` modelled as an
association list from crate name to last-known version. -/
abbrev WatchMap := List (String × String)

/-- `HashMap::get`-style lookup: the value stored at key `k`. -/
def mapFind (m : WatchMap) (k : String) : Option String :=
  match m with
  | [] => none
  | p :: rest => if p.1 = k then some p.2 else mapFind rest k

/-- `HashMap::insert`: overwrite the entry at key `k` if present,
otherwise add a new entry. -/
def mapInsert (m : WatchMap) (k v : String) : WatchMap :=
  match m with
  | [] => [(k, v)]
  | p :: rest => if p.1 = k then (k, v) :: rest else p :: mapInsert rest k v

/-- `HashMap::remove`: delete the entry at key `k`, returning the new
map together with the removed value (if any), exactly as the `remove`
handler in `main.rs` consumes it. -/
def mapRemoveGet (m : WatchMap) (k : String) : WatchMap × Option String :=
  match m with
  | [] => ([], none)
  | p :: rest =>
    if p.1 = k then (rest, some p.2)
    else
      let r := mapRemoveGet rest k
      (p :: r.1, r.2)

/-- Deletion without the returned value, used to state claims. -/
def mapRemove (m : WatchMap) (k : String) : WatchMap :=
  match m with
  | [] => []
  | p :: rest => if p.1 = k then rest else p :: mapRemove rest k

/-- Rust's `tail.split(' ')`: split a character list at every space;
`cur` holds the (reversed) characters of the token being read. -/
def splitTokens (cs : List Char) (cur : List Char) : List String :=
  match cs with
  | [] => [String.mk cur.reverse]
  | c :: rest =>
    if c = ' ' then String.mk cur.reverse :: splitTokens rest []
    else splitTokens rest (c :: cur)

/-- `tail.split(' ').filter(|crate_name| !crate_name.is_empty())`,
the token list both the `add` and the `remove` handler iterate. -/
def tokens (tail : String) : List String :=
  (splitTokens tail.data []).filter (fun t => t ≠ "")

/-- Concatenation of a list of strings, as Rust's
`collect::<String>()` over an iterator of `String`s. -/
def joinAll : List String → String
  | [] => ""
  | s :: rest => s ++ joinAll rest

/-- The static `HELP` string of `main.rs`. -/
def HELP : String :=
  "\n!add <crate>... - Add crates to be watched;\n!list - List watched crates.\n!remove <crate>... - Remove crates from watch list.\n!help - Show this dialog.\n"

/-- One line of the `list` reply:
`format!("`{}`:\t`{}`\n", crate_name, version)`. -/
def renderEntry (p : String × String) : String :=
  "`" ++ p.1 ++ "`:\t`" ++ p.2 ++ "`\n"

/-- The body the `list` handler builds under one lock acquisition:
`"No crates being watched"` when the map is empty, otherwise the
concatenation of one rendered line per entry. -/
def listReply (m : WatchMap) : String :=
  if m.isEmpty then "No crates being watched" else joinAll (m.map renderEntry)

/-- The `list` handler: ignores messages from other rooms, otherwise
replies with `listReply` and leaves the map unchanged. -/
def listHandle (optsRoom msgRoom : String) (m : WatchMap) :
    WatchMap × Option String :=
  if msgRoom ≠ optsRoom then (m, none) else (m, some (listReply m))

/-- The per-name body of the `add` handler's closure: query
`latest_version`; on success insert and produce the
`Added `name` version `latest`` line, on `NotFound` produce the
not-found line, on any other error the generic error line. -/
def addLine (reg : Registry) (m : WatchMap) (name : String) :
    WatchMap × String :=
  match reg name with
  | Except.ok latest =>
    (mapInsert m name latest,
      "Added `" ++ name ++ "` version `" ++ latest ++ "`\n")
  | Except.error CratesIoError.notFound =>
    (m, "Error: `" ++ name ++ "` not found\n")
  | Except.error (CratesIoError.other desc) =>
    (m, "Error: `" ++ name ++ "`, " ++ desc ++ "\n")

/-- The `add` handler's map-and-collect over the token list: the map
threads left to right through `addLine` and the per-name lines are
concatenated in order. -/
def processAdd (reg : Registry) : WatchMap → List String → WatchMap × String
  | m, [] => (m, "")
  | m, n :: rest =>
    let r := addLine reg m n
    let rr := processAdd reg r.1 rest
    (rr.1, r.2 ++ rr.2)

/-- The `add` handler: ignores other rooms; otherwise processes the
non-empty tokens of the tail and sends the accumulated reply, replaced
by `"No crates being watched"` when it is empty. -/
def addHandle (optsRoom msgRoom : String) (reg : Registry) (m : WatchMap)
    (tail : String) : WatchMap × Option String :=
  if msgRoom ≠ optsRoom then (m, none)
  else
    let r := processAdd reg m (tokens tail)
    (r.1, some (if r.2 = "" then "No crates being watched" else r.2))

/-- The per-name body of the `remove` handler's closure: call
`HashMap::remove`; if a version was stored report the removal with it,
otherwise report the error line (verbatim from `main.rs`:
``Error: `name` being watched``). -/
def removeLine (m : WatchMap) (name : String) : WatchMap × String :=
  let r := mapRemoveGet m name
  match r.2 with
  | some version =>
    (r.1, "Removed `" ++ name ++ "` (version `" ++ version ++ "`)\n")
  | none => (r.1, "Error: `" ++ name ++ "` being watched\n")

/-- The `remove` handler's map-and-collect over the token list. -/
def processRemove : WatchMap → List String → WatchMap × String
  | m, [] => (m, "")
  | m, n :: rest =>
    let r := removeLine m n
    let rr := processRemove r.1 rest
    (rr.1, r.2 ++ rr.2)

/-- The `remove` handler: ignores other rooms; otherwise always sends
the accumulated reply, even when it is the empty string. -/
def removeHandle (optsRoom msgRoom : String) (m : WatchMap)
    (tail : String) : WatchMap × Option String :=
  if msgRoom ≠ optsRoom then (m, none)
  else
    let r := processRemove m (tokens tail)
    (r.1, some r.2)

/-- The `help` handler: ignores other rooms, otherwise sends `HELP`. -/
def helpHandle (optsRoom msgRoom : String) (m : WatchMap) :
    WatchMap × Option String :=
  if msgRoom ≠ optsRoom then (m, none) else (m, some HELP)

/-- The notification line of `update_check_loop`:
`format!("`{}` updated from version `{}` to `{}`!", ...)`. -/
def notifLine (n old new : String) : String :=
  "`" ++ n ++ "` updated from version `" ++ old ++ "` to `" ++ new ++ "`!"

/-- One entry of the poll scan: `latest_version(crate_name).unwrap()`
(`none` models the panic); on a changed version the entry's value is
replaced by the latest and the notification line is produced,
otherwise the entry is kept and the empty string is produced. -/
def pollEntry (reg : Registry) (p : String × String) :
    Option ((String × String) × String) :=
  match reg p.1 with
  | Except.error _ => none
  | Except.ok latest =>
    if p.2 ≠ latest then some ((p.1, latest), notifLine p.1 p.2 latest)
    else some (p, "")

/-- The `iter_mut().map(...).collect::<String>()` pass of
`update_check_loop` over the whole map, under the single lock. -/
def pollScan (reg : Registry) : WatchMap → Option (WatchMap × String)
  | [] => some ([], "")
  | p :: rest =>
    match pollEntry reg p with
    | none => none
    | some r =>
      match pollScan reg rest with
      | none => none
      | some rr => some (r.1 :: rr.1, r.2 ++ rr.2)

/-- One cycle of `update_check_loop` (after the sleep): scan the map,
then send the accumulated output as a single message only when it is
non-empty.  `none` models the process terminating on a registry
error. -/
def pollCycle (reg : Registry) (m : WatchMap) :
    Option (WatchMap × Option String) :=
  match pollScan reg m with
  | none => none
  | some r => some (r.1, if r.2 = "" then none else some r.2)

/-- The value an entry holds after a successful poll cycle: the
registry's latest version (the entry itself if the query failed). -/
def pollUpdate (reg : Registry) (p : String × String) : String × String :=
  match reg p.1 with
  | Except.ok latest => (p.1, latest)
  | Except.error _ => p

/-- The line an entry contributes to the poll cycle's message. -/
def pollLineOf (reg : Registry) (p : String × String) : String :=
  match reg p.1 with
  | Except.ok latest => if p.2 ≠ latest then notifLine p.1 p.2 latest else ""
  | Except.error _ => ""

/-- The per-name behaviour of `add` as the specification states it: on
a successful query the entry is inserted into (or overwritten in) the
map and a success line is produced; on not-found or any other error
the map is not mutated for that name and the respective error line is
produced.  Returns the final map and the list of per-name lines. -/
def addNamesSpec (reg : Registry) : WatchMap → List String → WatchMap × List String
  | m, [] => (m, [])
  | m, n :: rest =>
    match reg n with
    | Except.ok latest =>
      let r := addNamesSpec reg (mapInsert m n latest) rest
      (r.1, ("Added `" ++ n ++ "` version `" ++ latest ++ "`\n") :: r.2)
    | Except.error CratesIoError.notFound =>
      let r := addNamesSpec reg m rest
      (r.1, ("Error: `" ++ n ++ "` not found\n") :: r.2)
    | Except.error (CratesIoError.other desc) =>
      let r := addNamesSpec reg m rest
      (r.1, ("Error: `" ++ n ++ "`, " ++ desc ++ "\n") :: r.2)

/-- The per-name behaviour of `remove` as the specification states it:
a name that is a key is removed and a removal line with the prior
version is produced; a name that is not a key leaves the map unchanged
and produces an error line. -/
def removeNamesSpec : WatchMap → List String → WatchMap × List String
  | m, [] => (m, [])
  | m, n :: rest =>
    match mapFind m n with
    | some version =>
      let r := removeNamesSpec (mapRemove m n) rest
      (r.1, ("Removed `" ++ n ++ "` (version `" ++ version ++ "`)\n") :: r.2)
    | none =>
      let r := removeNamesSpec m rest
      (r.1, ("Error: `" ++ n ++ "` being watched\n") :: r.2)

/-- The invariant of §3 of the specification: every key present in the
Watch Map has a non-empty version string. -/
def versionsNonempty (m : WatchMap) : Prop := ∀ p ∈ m, p.2 ≠ ""

/-! ## Helper lemmas -/

theorem str_eq_empty_iff {s : String} : s = "" ↔ s.data = [] :=
  String.ext_iff

theorem str_append_ne_empty_left (s t : String) (h : s ≠ "") : s ++ t ≠ "" := by
  intro hc
  apply h
  rw [str_eq_empty_iff] at hc ⊢
  rw [String.data_append] at hc
  exact (List.append_eq_nil.mp hc).1

theorem joinAll_cons (s : String) (l : List String) :
    joinAll (s :: l) = s ++ joinAll l := rfl

theorem joinAll_all_empty {l : List String} (h : ∀ s ∈ l, s = "") :
    joinAll l = "" := by
  induction l with
  | nil => rfl
  | cons a rest ih =>
    rw [joinAll_cons, h a (List.mem_cons_self a rest),
      ih (fun s hs => h s (List.mem_cons_of_mem a hs))]
    rfl

theorem infix_ext_left (a : String) {s t : String}
    (h : s.data <:+: t.data) : s.data <:+: (a ++ t).data := by
  rw [String.data_append]
  exact h.trans (List.suffix_append a.data t.data).isInfix

theorem infix_ext_right (b : String) {s t : String}
    (h : s.data <:+: t.data) : s.data <:+: (t ++ b).data := by
  rw [String.data_append]
  exact h.trans (List.prefix_append t.data b.data).isInfix

theorem mem_infix_joinAll {s : String} {l : List String} (h : s ∈ l) :
    s.data <:+: (joinAll l).data := by
  induction l with
  | nil => cases h
  | cons a rest ih =>
    rw [joinAll_cons]
    rcases List.mem_cons.mp h with rfl | hmem
    · rw [String.data_append]
      exact (List.prefix_append s.data (joinAll rest).data).isInfix
    · exact infix_ext_left a (ih hmem)

theorem joinAll_ne_empty_of_mem {s : String} {l : List String}
    (hm : s ∈ l) (hs : s ≠ "") : joinAll l ≠ "" := by
  intro hc
  obtain ⟨pre, post, hdata⟩ := mem_infix_joinAll hm
  rw [str_eq_empty_iff] at hc
  rw [hc] at hdata
  rcases List.append_eq_nil.mp hdata with ⟨h1, -⟩
  exact hs (str_eq_empty_iff.mpr (List.append_eq_nil.mp h1).2)

theorem old_infix_notifLine (n old new : String) :
    old.data <:+: (notifLine n old new).data := by
  unfold notifLine
  apply infix_ext_right
  apply infix_ext_right
  apply infix_ext_right
  rw [String.data_append]
  exact (List.suffix_append _ _).isInfix

theorem new_infix_notifLine (n old new : String) :
    new.data <:+: (notifLine n old new).data := by
  unfold notifLine
  apply infix_ext_right
  rw [String.data_append]
  exact (List.suffix_append _ _).isInfix

theorem notifLine_ne_empty (n old new : String) :
    notifLine n old new ≠ "" := by
  unfold notifLine
  repeat apply str_append_ne_empty_left
  decide

theorem pollScan_ok (reg : Registry) (m : WatchMap)
    (h : ∀ p ∈ m, ∃ v, reg p.1 = Except.ok v) :
    pollScan reg m =
      some (m.map (pollUpdate reg), joinAll (m.map (pollLineOf reg))) := by
  induction m with
  | nil => rfl
  | cons p rest ih =>
    obtain ⟨v, hv⟩ := h p (List.mem_cons_self p rest)
    have hrest := ih (fun q hq => h q (List.mem_cons_of_mem p hq))
    by_cases hne : p.2 ≠ v
    · simp only [pollScan, pollEntry, pollUpdate, pollLineOf, hv, hrest,
        if_pos hne, List.map_cons, joinAll_cons]
    · simp only [pollScan, pollEntry, pollUpdate, pollLineOf, hv, hrest,
        if_neg hne, List.map_cons, joinAll_cons]
      push_neg at hne
      simp [← hne]

theorem pollScan_err (reg : Registry) (m : WatchMap) (n v : String)
    (e : CratesIoError) (hm : (n, v) ∈ m) (he : reg n = Except.error e) :
    pollScan reg m = none := by
  induction m with
  | nil => cases hm
  | cons p rest ih =>
    rcases List.mem_cons.mp hm with hp | hmem
    · simp only [pollScan, pollEntry, ← hp, he]
    · rw [pollScan]
      cases hpe : pollEntry reg p with
      | none => rfl
      | some r => rw [ih hmem]

theorem tokens_mem_ne_empty (tail t : String) (h : t ∈ tokens tail) :
    t ≠ "" := by
  have := List.mem_filter.mp h
  simpa using this.2

theorem splitTokens_all_space (cs : List Char) (h : ∀ c ∈ cs, c = ' ') :
    (splitTokens cs []).filter (fun t => t ≠ "") = [] := by
  induction cs with
  | nil => rfl
  | cons c rest ih =>
    have hc : c = ' ' := h c (List.mem_cons_self c rest)
    rw [splitTokens, if_pos hc]
    have hrest := ih (fun d hd => h d (List.mem_cons_of_mem c hd))
    simpa using hrest

theorem tokens_all_space (tail : String) (h : ∀ c ∈ tail.data, c = ' ') :
    tokens tail = [] :=
  splitTokens_all_space tail.data h

theorem processAdd_eq_spec (reg : Registry) (names : List String)
    (m : WatchMap) :
    processAdd reg m names =
      ((addNamesSpec reg m names).1, joinAll (addNamesSpec reg m names).2) := by
  induction names generalizing m with
  | nil => rfl
  | cons n rest ih =>
    cases hv : reg n with
    | ok latest =>
      simp only [processAdd, addLine, addNamesSpec, hv, ih, joinAll_cons]
    | error e =>
      cases e with
      | notFound =>
        simp only [processAdd, addLine, addNamesSpec, hv, ih, joinAll_cons]
      | other desc =>
        simp only [processAdd, addLine, addNamesSpec, hv, ih, joinAll_cons]

theorem mapRemoveGet_eq (m : WatchMap) (k : String) :
    mapRemoveGet m k = (mapRemove m k, mapFind m k) := by
  induction m with
  | nil => rfl
  | cons p rest ih =>
    by_cases hk : p.1 = k
    · simp only [mapRemoveGet, mapRemove, mapFind, if_pos hk]
    · simp only [mapRemoveGet, mapRemove, mapFind, if_neg hk, ih]

theorem mapRemove_absent (m : WatchMap) (k : String)
    (h : mapFind m k = none) : mapRemove m k = m := by
  induction m with
  | nil => rfl
  | cons p rest ih =>
    rw [mapFind] at h
    by_cases hk : p.1 = k
    · rw [if_pos hk] at h
      cases h
    · rw [if_neg hk] at h
      rw [mapRemove, if_neg hk, ih h]

theorem processRemove_eq_spec (names : List String) (m : WatchMap) :
    processRemove m names =
      ((removeNamesSpec m names).1, joinAll (removeNamesSpec m names).2) := by
  induction names generalizing m with
  | nil => rfl
  | cons n rest ih =>
    cases hf : mapFind m n with
    | some v =>
      simp only [processRemove, removeLine, mapRemoveGet_eq, hf,
        removeNamesSpec, ih, joinAll_cons]
    | none =>
      simp only [processRemove, removeLine, mapRemoveGet_eq, hf,
        removeNamesSpec, ih, joinAll_cons, mapRemove_absent m n hf]

theorem addNamesSpec_lines_ne_empty (reg : Registry) (names : List String)
    (m : WatchMap) :
    ∀ s ∈ (addNamesSpec reg m names).2, s ≠ "" := by
  induction names generalizing m with
  | nil => intro s hs; cases hs
  | cons n rest ih =>
    intro s hs
    cases hv : reg n with
    | ok latest =>
      rw [addNamesSpec, hv] at hs
      rcases List.mem_cons.mp hs with rfl | hmem
      · repeat apply str_append_ne_empty_left
        decide
      · exact ih (mapInsert m n latest) s hmem
    | error e =>
      cases e with
      | notFound =>
        rw [addNamesSpec, hv] at hs
        rcases List.mem_cons.mp hs with rfl | hmem
        · repeat apply str_append_ne_empty_left
          decide
        · exact ih m s hmem
      | other desc =>
        rw [addNamesSpec, hv] at hs
        rcases List.mem_cons.mp hs with rfl | hmem
        · repeat apply str_append_ne_empty_left
          decide
        · exact ih m s hmem

theorem filter_keys_nil (m : WatchMap) (k : String)
    (h : k ∉ m.map Prod.fst) : m.filter (fun p => p.1 = k) = [] := by
  induction m with
  | nil => rfl
  | cons p rest ih =>
    simp only [List.map_cons, List.mem_cons, not_or] at h
    have hpk : ¬ (p.1 = k) := fun hc => h.1 hc.symm
    simp only [List.filter_cons, decide_eq_true_eq, if_neg hpk]
    exact ih h.2

theorem mapInsert_filter_self (m : WatchMap) (k v : String)
    (hnd : (m.map Prod.fst).Nodup) :
    (mapInsert m k v).filter (fun p => p.1 = k) = [(k, v)] := by
  induction m with
  | nil => simp [mapInsert]
  | cons p rest ih =>
    simp only [List.map_cons, List.nodup_cons] at hnd
    by_cases hk : p.1 = k
    · rw [mapInsert, if_pos hk]
      rw [List.filter_cons_of_pos (by simp),
        filter_keys_nil rest k (hk ▸ hnd.1)]
    · rw [mapInsert, if_neg hk]
      simp only [List.filter_cons, decide_eq_true_eq, if_neg hk]
      exact ih hnd.2

theorem mapInsert_fst_of_mem (m : WatchMap) (k v : String)
    (h : k ∈ m.map Prod.fst) :
    (mapInsert m k v).map Prod.fst = m.map Prod.fst := by
  induction m with
  | nil => cases h
  | cons p rest ih =>
    by_cases hk : p.1 = k
    · rw [mapInsert, if_pos hk]
      simp [hk]
    · rw [mapInsert, if_neg hk]
      simp only [List.map_cons, List.mem_cons] at h
      rcases h with h | h
      · exact absurd h.symm hk
      · simp [ih h]

theorem mapInsert_fst_of_not_mem (m : WatchMap) (k v : String)
    (h : k ∉ m.map Prod.fst) :
    (mapInsert m k v).map Prod.fst = m.map Prod.fst ++ [k] := by
  induction m with
  | nil => rfl
  | cons p rest ih =>
    simp only [List.map_cons, List.mem_cons, not_or] at h
    have hk : ¬ (p.1 = k) := fun hc => h.1 hc.symm
    rw [mapInsert, if_neg hk]
    simp [ih h.2]

theorem mapInsert_nodup_keys (m : WatchMap) (k v : String)
    (hnd : (m.map Prod.fst).Nodup) :
    ((mapInsert m k v).map Prod.fst).Nodup := by
  by_cases h : k ∈ m.map Prod.fst
  · rw [mapInsert_fst_of_mem m k v h]
    exact hnd
  · rw [mapInsert_fst_of_not_mem m k v h]
    simp [List.nodup_append, hnd, h]

theorem versionsNonempty_mapInsert {m : WatchMap} {k v : String}
    (h : versionsNonempty m) (hv : v ≠ "") :
    versionsNonempty (mapInsert m k v) := by
  induction m with
  | nil =>
    intro p hp
    rcases List.mem_singleton.mp hp with rfl
    exact hv
  | cons q rest ih =>
    intro p hp
    by_cases hk : q.1 = k
    · rw [mapInsert, if_pos hk] at hp
      rcases List.mem_cons.mp hp with rfl | hmem
      · exact hv
      · exact h p (List.mem_cons_of_mem q hmem)
    · rw [mapInsert, if_neg hk] at hp
      rcases List.mem_cons.mp hp with rfl | hmem
      · exact h p (List.mem_cons_self p rest)
      · exact ih (fun r hr => h r (List.mem_cons_of_mem q hr)) p hmem

theorem mem_of_mem_mapRemove {m : WatchMap} {k : String}
    {p : String × String} (hp : p ∈ mapRemove m k) : p ∈ m := by
  induction m with
  | nil => cases hp
  | cons q rest ih =>
    by_cases hk : q.1 = k
    · rw [mapRemove, if_pos hk] at hp
      exact List.mem_cons_of_mem q hp
    · rw [mapRemove, if_neg hk] at hp
      rcases List.mem_cons.mp hp with rfl | hmem
      · exact List.mem_cons_self p rest
      · exact List.mem_cons_of_mem q (ih hmem)

theorem versionsNonempty_processAdd (reg : Registry) (names : List String)
    (m : WatchMap) (hreg : ∀ n v, reg n = Except.ok v → v ≠ "")
    (h : versionsNonempty m) :
    versionsNonempty (processAdd reg m names).1 := by
  induction names generalizing m with
  | nil => exact h
  | cons n rest ih =>
    cases hv : reg n with
    | ok latest =>
      simp only [processAdd, addLine, hv]
      exact ih (mapInsert m n latest)
        (versionsNonempty_mapInsert h (hreg n latest hv))
    | error e =>
      cases e with
      | notFound =>
        simp only [processAdd, addLine, hv]
        exact ih m h
      | other desc =>
        simp only [processAdd, addLine, hv]
        exact ih m h

theorem versionsNonempty_processRemove (names : List String) (m : WatchMap)
    (h : versionsNonempty m) :
    versionsNonempty (processRemove m names).1 := by
  induction names generalizing m with
  | nil => exact h
  | cons n rest ih =>
    have hrm : versionsNonempty (mapRemove m n) :=
      fun p hp => h p (mem_of_mem_mapRemove hp)
    cases hf : mapFind m n with
    | some v =>
      simp only [processRemove, removeLine, mapRemoveGet_eq, hf]
      exact ih (mapRemove m n) hrm
    | none =>
      simp only [processRemove, removeLine, mapRemoveGet_eq, hf]
      exact ih (mapRemove m n) hrm

theorem versionsNonempty_pollScan (reg : Registry) (m : WatchMap)
    (hreg : ∀ n v, reg n = Except.ok v → v ≠ "")
    (h : versionsNonempty m) :
    ∀ m' out, pollScan reg m = some (m', out) → versionsNonempty m' := by
  induction m with
  | nil =>
    intro m' out heq
    rw [pollScan] at heq
    cases heq
    intro p hp
    cases hp
  | cons p rest ih =>
    intro m' out heq
    rw [pollScan] at heq
    cases hpe : pollEntry reg p with
    | none => rw [hpe] at heq; cases heq
    | some r =>
      rw [hpe] at heq
      cases hps : pollScan reg rest with
      | none => rw [hps] at heq; cases heq
      | some rr =>
        rw [hps] at heq
        cases heq
        intro q hq
        rcases List.mem_cons.mp hq with rfl | hmem
        · cases hv : reg p.1 with
          | error e =>
            simp only [pollEntry, hv] at hpe
            cases hpe
          | ok latest =>
            simp only [pollEntry, hv] at hpe
            by_cases hne : p.2 ≠ latest
            · rw [if_pos hne] at hpe
              cases hpe
              exact hreg p.1 latest hv
            · rw [if_neg hne] at hpe
              cases hpe
              exact h p (List.mem_cons_self p rest)
        · exact ih (fun q hq => h q (List.mem_cons_of_mem p hq)) rr.1 rr.2
            (by rw [hps]) q hmem

theorem name_infix_renderEntry (p : String × String) :
    p.1.data <:+: (renderEntry p).data := by
  unfold renderEntry
  apply infix_ext_right
  apply infix_ext_right
  apply infix_ext_right
  rw [String.data_append]
  exact (List.suffix_append _ _).isInfix

theorem version_infix_renderEntry (p : String × String) :
    p.2.data <:+: (renderEntry p).data := by
  unfold renderEntry
  apply infix_ext_right
  rw [String.data_append]
  exact (List.suffix_append _ _).isInfix

theorem pollUpdate_fst (reg : Registry) (p : String × String) :
    (pollUpdate reg p).1 = p.1 := by
  unfold pollUpdate
  cases reg p.1 <;> rfl

theorem pollCycle_inv (reg : Registry) (m m' : WatchMap)
    (msg : Option String) (h : pollCycle reg m = some (m', msg)) :
    ∃ out, pollScan reg m = some (m', out) := by
  rw [pollCycle] at h
  cases hs : pollScan reg m with
  | none => rw [hs] at h; cases h
  | some r =>
    rw [hs] at h
    injection h with hpair
    have h1 : r.1 = m' := by
      have h2 := congrArg Prod.fst hpair
      simpa using h2
    exact ⟨r.2, by rw [← h1]⟩

/-! ## The claims -/

/-- C3: an `add` command in the configured room whose tail contains no
names (or only whitespace) replies exactly `"No crates being watched"`
and leaves the Watch Map unchanged; moreover no token the handler ever
processes is empty, so no registry query is made for an empty token. -/
theorem add_empty_tail_reply (optsRoom : String) (reg : Registry)
    (m : WatchMap) (tail : String) (h : ∀ c ∈ tail.data, c = ' ') :
    addHandle optsRoom optsRoom reg m tail =
      (m, some "No crates being watched") ∧
    ∀ t2 : String, ∀ t ∈ tokens t2, t ≠ "" := by
  constructor
  · rw [addHandle, if_neg (by simp), tokens_all_space tail h]
    rfl
  · intro t2 t ht
    exact tokens_mem_ne_empty t2 t ht

theorem add_empty_tail_reply_witness :
    addHandle "!r:example.org" "!r:example.org"
        (fun _ => Except.ok "1.0.0") [("a", "1")] "  " =
      ([("a", "1")], some "No crates being watched") ∧
    ∀ t2 : String, ∀ t ∈ tokens t2, t ≠ "" :=
  add_empty_tail_reply "!r:example.org" (fun _ => Except.ok "1.0.0")
    [("a", "1")] "  " (by decide)

/-- C4: a registry error (not-found or any other) on any entry of the
Watch Map during a poll cycle is fatal: the cycle panics (modelled by
`pollCycle` returning `none`) instead of skipping or retrying the
entry. -/
theorem poll_registry_error_fatal (reg : Registry) (m : WatchMap)
    (n v : String) (e : CratesIoError) (hm : (n, v) ∈ m)
    (he : reg n = Except.error e) : pollCycle reg m = none := by
  rw [pollCycle, pollScan_err reg m n v e hm he]

theorem poll_registry_error_fatal_witness :
    pollCycle (fun _ => Except.error CratesIoError.notFound)
      [("foo", "1.0.0")] = none :=
  poll_registry_error_fatal _ _ "foo" "1.0.0" CratesIoError.notFound
    (by decide) rfl

/-- C5: a message whose room differs from the configured room triggers
no Watch Map mutation and no reply, for each of the four handlers. -/
theorem room_isolation (optsRoom msgRoom : String) (reg : Registry)
    (m : WatchMap) (tail : String) (h : msgRoom ≠ optsRoom) :
    addHandle optsRoom msgRoom reg m tail = (m, none) ∧
    removeHandle optsRoom msgRoom m tail = (m, none) ∧
    listHandle optsRoom msgRoom m = (m, none) ∧
    helpHandle optsRoom msgRoom m = (m, none) := by
  refine ⟨?_, ?_, ?_, ?_⟩ <;>
    simp [addHandle, removeHandle, listHandle, helpHandle, h]

theorem room_isolation_witness :
    addHandle "!room:x" "!other:x" (fun _ => Except.ok "1.0.0")
        [("a", "1")] "add foo" = ([("a", "1")], none) ∧
    removeHandle "!room:x" "!other:x" [("a", "1")] "foo" =
      ([("a", "1")], none) ∧
    listHandle "!room:x" "!other:x" [("a", "1")] = ([("a", "1")], none) ∧
    helpHandle "!room:x" "!other:x" [("a", "1")] = ([("a", "1")], none) :=
  room_isolation "!room:x" "!other:x" (fun _ => Except.ok "1.0.0")
    [("a", "1")] "add foo" (by decide)

/-- C7: a `list` command in the configured room leaves the map
unchanged and replies with `listReply` of the one map snapshot it
read: on the empty map exactly `"No crates being watched"`, otherwise
one rendered line per entry, each containing the entry's name and its
version. -/
theorem list_renders_entries (optsRoom : String) (m : WatchMap) :
    listHandle optsRoom optsRoom m = (m, some (listReply m)) ∧
    listReply [] = "No crates being watched" ∧
    (m ≠ [] → listReply m = joinAll (m.map renderEntry)) ∧
    (∀ p ∈ m, p.1.data <:+: (listReply m).data ∧
      p.2.data <:+: (listReply m).data) := by
  have hrender : m ≠ [] → listReply m = joinAll (m.map renderEntry) := by
    intro hne
    rw [listReply, if_neg]
    simpa using hne
  refine ⟨by simp [listHandle], rfl, hrender, ?_⟩
  intro p hp
  have hne : m ≠ [] := by intro hc; rw [hc] at hp; cases hp
  rw [hrender hne]
  have hj := mem_infix_joinAll (List.mem_map_of_mem renderEntry hp)
  exact ⟨(name_infix_renderEntry p).trans hj,
    (version_infix_renderEntry p).trans hj⟩

theorem list_renders_entries_witness :
    listHandle "!r:x" "!r:x" [("foo", "1.2.3")] =
      ([("foo", "1.2.3")], some (listReply [("foo", "1.2.3")])) ∧
    listReply [] = "No crates being watched" ∧
    "foo".data <:+: (listReply [("foo", "1.2.3")]).data := by
  obtain ⟨h1, h2, -, h4⟩ := list_renders_entries "!r:x" [("foo", "1.2.3")]
  exact ⟨h1, h2, (h4 ("foo", "1.2.3") (by decide)).1⟩

/-- C10: a poll cycle in which every registry query succeeds preserves
the Watch Map's key set: only values of existing entries change. -/
theorem poll_preserves_keys (reg : Registry) (m : WatchMap)
    (h : ∀ p ∈ m, ∃ v, reg p.1 = Except.ok v) :
    ∃ m' msg, pollCycle reg m = some (m', msg) ∧
      m'.map Prod.fst = m.map Prod.fst := by
  refine ⟨m.map (pollUpdate reg),
    if joinAll (m.map (pollLineOf reg)) = "" then none
    else some (joinAll (m.map (pollLineOf reg))), ?_, ?_⟩
  · simp only [pollCycle, pollScan_ok reg m h]
  · rw [List.map_map]
    exact List.map_congr_left (fun p _ => pollUpdate_fst reg p)

theorem poll_preserves_keys_witness :
    ∃ m' msg, pollCycle (fun _ => Except.ok "2.0.0") [("foo", "1.0.0")] =
        some (m', msg) ∧ m'.map Prod.fst = ["foo"] := by
  obtain ⟨m', msg, h1, h2⟩ :=
    poll_preserves_keys (fun _ => Except.ok "2.0.0") [("foo", "1.0.0")]
      (fun p _ => ⟨"2.0.0", rfl⟩)
  exact ⟨m', msg, h1, h2⟩

theorem addNamesSpec_snd_ne_nil (reg : Registry) (names : List String)
    (m : WatchMap) (h : names ≠ []) : (addNamesSpec reg m names).2 ≠ [] := by
  cases names with
  | nil => exact absurd rfl h
  | cons n rest =>
    cases hv : reg n with
    | ok latest => simp [addNamesSpec, hv]
    | error e =>
      cases e with
      | notFound => simp [addNamesSpec, hv]
      | other desc => simp [addNamesSpec, hv]

theorem addReply_ne_empty (reg : Registry) (names : List String)
    (m : WatchMap) (h : names ≠ []) :
    joinAll (addNamesSpec reg m names).2 ≠ "" := by
  cases hs : (addNamesSpec reg m names).2 with
  | nil => exact absurd hs (addNamesSpec_snd_ne_nil reg names m h)
  | cons s rest =>
    exact joinAll_ne_empty_of_mem (List.mem_cons_self s rest)
      (addNamesSpec_lines_ne_empty reg names m s
        (by rw [hs]; exact List.mem_cons_self s rest))

/-- C1: a poll cycle in which every registry query succeeds updates
each entry in place to the registry's latest version; an entry whose
latest differs from the stored version contributes one notification
line mentioning both versions; if at least one line was accumulated
exactly one combined message holding all of them is produced, and if
no entry changed no message is produced. -/
theorem poll_cycle_updates_and_notifies (reg : Registry) (m : WatchMap)
    (h : ∀ p ∈ m, ∃ v, reg p.1 = Except.ok v) :
    ∃ msg, pollCycle reg m = some (m.map (pollUpdate reg), msg) ∧
      msg = (if joinAll (m.map (pollLineOf reg)) = "" then none
             else some (joinAll (m.map (pollLineOf reg)))) ∧
      ((∀ p ∈ m, reg p.1 = Except.ok p.2) → msg = none) ∧
      (∀ p ∈ m, ∀ latest, reg p.1 = Except.ok latest → latest ≠ p.2 →
        ∃ s, msg = some s ∧ (notifLine p.1 p.2 latest).data <:+: s.data ∧
          p.2.data <:+: s.data ∧ latest.data <:+: s.data) := by
  refine ⟨if joinAll (m.map (pollLineOf reg)) = "" then none
    else some (joinAll (m.map (pollLineOf reg))), ?_, rfl, ?_, ?_⟩
  · simp only [pollCycle, pollScan_ok reg m h]
  · intro hall
    have hempty : joinAll (m.map (pollLineOf reg)) = "" := by
      apply joinAll_all_empty
      intro s hs
      obtain ⟨p, hp, rfl⟩ := List.mem_map.mp hs
      simp [pollLineOf, hall p hp]
    rw [if_pos hempty]
  · intro p hp latest hlat hne
    have hline : pollLineOf reg p = notifLine p.1 p.2 latest := by
      simp only [pollLineOf, hlat, if_pos (Ne.symm hne)]
    have hmem : pollLineOf reg p ∈ m.map (pollLineOf reg) :=
      List.mem_map_of_mem (pollLineOf reg) hp
    have hjne : joinAll (m.map (pollLineOf reg)) ≠ "" :=
      joinAll_ne_empty_of_mem hmem
        (by rw [hline]; exact notifLine_ne_empty p.1 p.2 latest)
    have hninf : (notifLine p.1 p.2 latest).data <:+:
        (joinAll (m.map (pollLineOf reg))).data := by
      rw [← hline]
      exact mem_infix_joinAll hmem
    exact ⟨joinAll (m.map (pollLineOf reg)), by rw [if_neg hjne], hninf,
      (old_infix_notifLine p.1 p.2 latest).trans hninf,
      (new_infix_notifLine p.1 p.2 latest).trans hninf⟩

theorem poll_cycle_updates_and_notifies_witness :
    ∃ msg, pollCycle (fun _ => Except.ok "1.1.0") [("foo", "1.0.0")] =
      some ([("foo", "1.1.0")], msg) := by
  obtain ⟨msg, h1, -, -, -⟩ :=
    poll_cycle_updates_and_notifies (fun _ => Except.ok "1.1.0")
      [("foo", "1.0.0")] (fun p _ => ⟨"1.1.0", rfl⟩)
  exact ⟨msg, h1⟩

/-- C2: an `add` command in the configured room with a non-empty token
list behaves per name as `addNamesSpec` describes: a successful query
inserts (or overwrites) the entry and yields the success line, a
not-found or other registry error leaves the map untouched for that
name and yields the respective error line; the single reply is the
concatenation of the per-name lines. -/
theorem add_per_name_spec (optsRoom : String) (reg : Registry)
    (m : WatchMap) (tail : String) (h : tokens tail ≠ []) :
    addHandle optsRoom optsRoom reg m tail =
      ((addNamesSpec reg m (tokens tail)).1,
        some (joinAll (addNamesSpec reg m (tokens tail)).2)) := by
  rw [addHandle, if_neg (by simp)]
  simp only [processAdd_eq_spec]
  rw [if_neg (addReply_ne_empty reg (tokens tail) m h)]

theorem add_per_name_spec_witness :
    addHandle "!r:example.org" "!r:example.org"
        (fun n => if n = "alpha" then Except.ok "0.1.0"
          else Except.error CratesIoError.notFound)
        [] "alpha beta" =
      ([("alpha", "0.1.0")],
        some ("Added `alpha` version `0.1.0`\n" ++
          "Error: `beta` not found\n")) := by
  have h := add_per_name_spec "!r:example.org"
    (fun n => if n = "alpha" then Except.ok "0.1.0"
      else Except.error CratesIoError.notFound)
    [] "alpha beta" (by decide)
  rw [h]
  decide

/-- C6: a `remove` command in the configured room behaves per
non-empty name as `removeNamesSpec` describes: a name that is a key is
removed and reported together with the prior stored version, a name
that is not a key leaves the map unchanged and yields an error line;
exactly one reply (the concatenation of the lines) is always sent, and
it is the empty string when the name list is empty. -/
theorem remove_per_name_spec (optsRoom : String) (m : WatchMap)
    (tail : String) :
    removeHandle optsRoom optsRoom m tail =
      ((removeNamesSpec m (tokens tail)).1,
        some (joinAll (removeNamesSpec m (tokens tail)).2)) ∧
    (tokens tail = [] →
      removeHandle optsRoom optsRoom m tail = (m, some "")) := by
  have hmain : removeHandle optsRoom optsRoom m tail =
      ((removeNamesSpec m (tokens tail)).1,
        some (joinAll (removeNamesSpec m (tokens tail)).2)) := by
    rw [removeHandle, if_neg (by simp)]
    simp only [processRemove_eq_spec]
  exact ⟨hmain, fun ht => by rw [hmain, ht]; rfl⟩

theorem remove_per_name_spec_witness :
    removeHandle "!r:x" "!r:x" [("foo", "1.0.0")] "foo bar" =
      ([], some ("Removed `foo` (version `1.0.0`)\n" ++
        "Error: `bar` being watched\n")) := by
  have h := (remove_per_name_spec "!r:x" [("foo", "1.0.0")] "foo bar").1
  rw [h]
  decide

/-- C8: adding the same name twice — in one `add` command (token list
`[n, n]`) or in two consecutive commands — with the registry returning
the same version both times leaves exactly one entry for that name,
holding the queried version, while two success lines (not
deduplicated) are produced. -/
theorem add_twice_single_entry (reg : Registry) (m : WatchMap)
    (n v : String) (hv : reg n = Except.ok v)
    (hnd : (m.map Prod.fst).Nodup) :
    (processAdd reg m [n, n]).1.filter (fun p => p.1 = n) = [(n, v)] ∧
    (processAdd reg m [n, n]).2 =
      ("Added `" ++ n ++ "` version `" ++ v ++ "`\n") ++
        ("Added `" ++ n ++ "` version `" ++ v ++ "`\n") ∧
    (processAdd reg (processAdd reg m [n]).1 [n]).1.filter
      (fun p => p.1 = n) = [(n, v)] ∧
    (processAdd reg (processAdd reg m [n]).1 [n]).2 =
      "Added `" ++ n ++ "` version `" ++ v ++ "`\n" := by
  have hnd2 := mapInsert_nodup_keys m n v hnd
  refine ⟨?_, ?_, ?_, ?_⟩
  · simp only [processAdd, addLine, hv]
    exact mapInsert_filter_self (mapInsert m n v) n v hnd2
  · simp only [processAdd, addLine, hv, String.append_empty]
  · simp only [processAdd, addLine, hv]
    exact mapInsert_filter_self (mapInsert m n v) n v hnd2
  · simp only [processAdd, addLine, hv, String.append_empty]

theorem add_twice_single_entry_witness :
    (processAdd (fun _ => Except.ok "1.2.3") [] ["foo", "foo"]).1.filter
      (fun p => p.1 = "foo") = [("foo", "1.2.3")] ∧
    (processAdd (fun _ => Except.ok "1.2.3") [] ["foo", "foo"]).2 =
      ("Added `" ++ "foo" ++ "` version `" ++ "1.2.3" ++ "`\n") ++
        ("Added `" ++ "foo" ++ "` version `" ++ "1.2.3" ++ "`\n") ∧
    (processAdd (fun _ => Except.ok "1.2.3")
      (processAdd (fun _ => Except.ok "1.2.3") [] ["foo"]).1
      ["foo"]).1.filter (fun p => p.1 = "foo") = [("foo", "1.2.3")] ∧
    (processAdd (fun _ => Except.ok "1.2.3")
      (processAdd (fun _ => Except.ok "1.2.3") [] ["foo"]).1 ["foo"]).2 =
      "Added `" ++ "foo" ++ "` version `" ++ "1.2.3" ++ "`\n" :=
  add_twice_single_entry (fun _ => Except.ok "1.2.3") [] "foo" "1.2.3"
    rfl (by decide)

/-- C9 (counterexample): the non-empty-version invariant is not
preserved unconditionally: with a registry that answers the empty
version string, `add foo` on the empty map (which satisfies the
invariant) produces a map containing the key `foo` with the empty
version string. -/
theorem nonempty_version_invariant_cex :
    versionsNonempty [] ∧
    ¬ versionsNonempty
      (addHandle "!r:x" "!r:x" (fun _ => Except.ok "") [] "foo").1 := by
  constructor
  · intro p hp
    cases hp
  · intro hinv
    exact hinv ("foo", "") (by decide) rfl

/-- C9 (amended): provided the registry only ever reports non-empty
version strings, every operation — `add`, `remove`, `list`, `help` in
either room, and a completed poll cycle — preserves the invariant that
every key of the Watch Map holds a non-empty version string. -/
theorem nonempty_version_invariant_amended (optsRoom msgRoom : String)
    (reg : Registry) (m : WatchMap) (tail : String)
    (hreg : ∀ n v, reg n = Except.ok v → v ≠ "")
    (hm : versionsNonempty m) :
    versionsNonempty (addHandle optsRoom msgRoom reg m tail).1 ∧
    versionsNonempty (removeHandle optsRoom msgRoom m tail).1 ∧
    versionsNonempty (listHandle optsRoom msgRoom m).1 ∧
    versionsNonempty (helpHandle optsRoom msgRoom m).1 ∧
    (∀ m' msg, pollCycle reg m = some (m', msg) → versionsNonempty m') := by
  have hpoll : ∀ m' msg, pollCycle reg m = some (m', msg) →
      versionsNonempty m' := by
    intro m' msg hp
    obtain ⟨out, hout⟩ := pollCycle_inv reg m m' msg hp
    exact versionsNonempty_pollScan reg m hreg hm m' out hout
  refine ⟨?_, ?_, ?_, ?_, hpoll⟩
  · by_cases hr : msgRoom ≠ optsRoom
    · rw [addHandle, if_pos hr]
      exact hm
    · rw [addHandle, if_neg hr]
      exact versionsNonempty_processAdd reg (tokens tail) m hreg hm
  · by_cases hr : msgRoom ≠ optsRoom
    · rw [removeHandle, if_pos hr]
      exact hm
    · rw [removeHandle, if_neg hr]
      exact versionsNonempty_processRemove (tokens tail) m hm
  · by_cases hr : msgRoom ≠ optsRoom
    · rw [listHandle, if_pos hr]
      exact hm
    · rw [listHandle, if_neg hr]
      exact hm
  · by_cases hr : msgRoom ≠ optsRoom
    · rw [helpHandle, if_pos hr]
      exact hm
    · rw [helpHandle, if_neg hr]
      exact hm

theorem nonempty_version_invariant_amended_witness :
    versionsNonempty (addHandle "!r:x" "!r:x" (fun _ => Except.ok "1.0.0")
      [("foo", "2.0.0")] "bar").1 :=
  (nonempty_version_invariant_amended "!r:x" "!r:x"
    (fun _ => Except.ok "1.0.0") [("foo", "2.0.0")] "bar"
    (fun n v hv => by injection hv with h; subst h; decide)
    (fun p hp => by rcases List.mem_singleton.mp hp with rfl; decide)).1
